import Mathlib

/-!
# zipfile-test: indexing, picking and re-zipping archive entries

A shallow embedding of `main.go`.  The program opens a zip archive, indexes
its non-directory entries by base filename (`newInfile`), streams one entry to
a consumer (`pick`) and writes a chosen list of entries to a new archive
(`rezip`).

Modelling conventions.

* Go strings are Lean strings; `fmt.Errorf` with `%s` / `%v` is concatenation
  and an `error` value is `Option String` (`none` is `nil`).  The only
  character the program inspects is the slash, a single byte that is part of
  no multi-byte sequence, so the byte-wise `path.Base` and the one on
  characters agree.
* The file system, the table of open handles and the handle counter are an
  explicit `World` that every operation threads through.  `pick` and `rezip`
  also return the list of `Event`s they performed, in order.
* Outcomes of operating-system and library calls that the program cannot
  control (`os.OpenFile`, `zip.Writer.Create`, writes, the two `Close` calls
  on the destination) are read from a `Faults` oracle.
* What `zip.File.Open` returns for an entry, and the bytes of its stream, are
  fields of the entry and do not change while the archive is open.
-/

namespace ZipfileTest

/-! ## Library data: archive entries, streams, files -/

/-- An entry of a zip archive as `archive/zip` presents it (`zip.File`): its
name, whether its external attributes carry the directory bit, the
decompressed bytes its stream yields, the error of `Open` if it fails, and the
error that ends the stream after those bytes if reading fails. -/
structure ZipFile where
  Name : String
  attrDir : Bool
  content : List UInt8
  openErr : Option String
  readErr : Option String
deriving DecidableEq

/-- The test `len(name) > 0 && name[len(name)-1] == '/'`. -/
def endsWithSlash (name : String) : Bool :=
  name.data.getLast? == some '/'

/-- The value of `f.Mode().IsDir()`: `FileHeader.Mode` takes the directory bit
from the external attributes and also sets it when the name ends in a slash. -/
def ZipFile.IsDir (f : ZipFile) : Bool :=
  f.attrDir || endsWithSlash f.Name

/-- Go's `strings.LastIndexByte`: the index of the last occurrence of `c`,
`none` standing for `-1`. -/
def lastIndexByte : List Char → Char → Option Nat
  | [], _ => none
  | x :: xs, c =>
    match lastIndexByte xs c with
    | some i => some (i + 1)
    | none => if x = c then some 0 else none

/-- Go's `path.Base`: the empty path gives `"."`; trailing slashes are
stripped; what follows the last remaining slash is kept; a path of slashes
only gives `"/"`. -/
def pathBase (path : String) : String :=
  if path = "" then "."
  else
    let p1 := path.data.rdropWhile (fun c => c == '/')
    let p2 :=
      match lastIndexByte p1 '/' with
      | some i => p1.drop (i + 1)
      | none => p1
    if p2 = [] then "/" else String.mk p2

/-- A Go `map[string]*zip.File`: an association list that holds each key at
most once. -/
abbrev GoMap := List (String × ZipFile)

/-- The map read `m[k]` with its `ok` flag. -/
def GoMap.get (m : GoMap) (k : String) : Option ZipFile :=
  match m with
  | [] => none
  | (k1, v1) :: rest => if k1 = k then some v1 else GoMap.get rest k

/-- The map assignment `m[k] = v`: the value under `k` is replaced, or the key
is added. -/
def GoMap.set (m : GoMap) (k : String) (v : ZipFile) : GoMap :=
  match m with
  | [] => [(k, v)]
  | (k1, v1) :: rest => if k1 = k then (k, v) :: rest else (k1, v1) :: GoMap.set rest k v

/-- The keys of the map. -/
def GoMap.keys (m : GoMap) : List String :=
  m.map (fun p => p.1)

/-- What a path of the file system holds: a complete zip container with these
entries, or a file that is no valid archive (just truncated, or holding the
entries written so far without the central directory). -/
inductive FileData where
  | zip (entries : List ZipFile)
  | unfinished (entries : List ZipFile)
deriving DecidableEq

/-- The state outside the program: the file system, the handles that are
currently open, and the next fresh handle. -/
structure World where
  fs : List (String × FileData)
  handles : List Nat
  next : Nat
deriving DecidableEq

/-- The content of the file at `path`, if it exists. -/
def World.read (w : World) (path : String) : Option FileData :=
  match w.fs.find? (fun p => p.1 == path) with
  | some p => some p.2
  | none => none

/-- Replace the content of the file at `path`, creating it when absent. -/
def World.write (w : World) (path : String) (d : FileData) : World :=
  { w with fs := (path, d) :: w.fs.filter (fun p => p.1 != path) }

/-- Allocate a fresh open handle. -/
def World.acquire (w : World) : Nat × World :=
  (w.next, { w with handles := w.next :: w.handles, next := w.next + 1 })

/-- Close handle `h`. -/
def World.release (w : World) (h : Nat) : World :=
  { w with handles := w.handles.erase h }

/-- The steps an operation performs on handles and on the destination
archive. -/
inductive Event where
  | openFile (h : Nat) (path : String)
  | openEntry (h : Nat) (name : String)
  | create (name : String)
  | call (h : Nat)
  | close (h : Nat)
deriving DecidableEq

/-- The `io.ReadCloser` that `zip.File.Open` returns: its handle, the bytes it
yields, and the error that ends it (`none` for a clean end of file). -/
structure Stream where
  handle : Nat
  bytes : List UInt8
  err : Option String
deriving DecidableEq

/-- The call `fl.Open()`: the entry's error, or a stream on a fresh handle. -/
def ZipFile.Open (fl : ZipFile) (w : World) : Except String Stream × World :=
  match fl.openErr with
  | some e => (Except.error e, w)
  | none =>
    let (h, w1) := w.acquire
    (Except.ok { handle := h, bytes := fl.content, err := fl.readErr }, w1)

/-- The `zip.ReadCloser` kept by an `infile`: its handle and the entries of the
archive in directory order. -/
structure ReadCloser where
  handle : Nat
  File : List ZipFile
deriving DecidableEq

/-- The call `zip.OpenReader(fname)`: succeeds on a complete zip container. -/
def openReader (fname : String) (w : World) : Except String ReadCloser × World :=
  match w.read fname with
  | some (FileData.zip entries) =>
    let (h, w1) := w.acquire
    (Except.ok { handle := h, File := entries }, w1)
  | some (FileData.unfinished _) => (Except.error "zip: not a valid zip file", w)
  | none => (Except.error ("open " ++ fname ++ ": no such file or directory"), w)

/-! ## The program -/

/-- The struct `infile`. -/
structure infile where
  name : String
  basenames : GoMap
  reader : ReadCloser
deriving DecidableEq

/-- The loop of `newInfile` over `reader.File`: directories are skipped, every
other entry is stored under `path.Base(f.Name)`. -/
def indexEntries : List ZipFile → GoMap → GoMap
  | [], names => names
  | f :: rest, names =>
    if f.IsDir then indexEntries rest names
    else indexEntries rest (names.set (pathBase f.Name) f)

/-- The function `newInfile`. -/
def newInfile (fname : String) (w : World) : Except String infile × World :=
  match openReader fname w with
  | (Except.error e, w1) => (Except.error ("cannot open archive: " ++ e), w1)
  | (Except.ok reader, w1) =>
    (Except.ok { name := fname, reader := reader, basenames := indexEntries reader.File [] }, w1)

/-- What a call of `pick` leaves behind: the returned `error`, the receiver,
the world, the consumer's state, and the events performed. -/
structure PickOut (σ : Type) where
  ret : Option String
  self : infile
  world : World
  consumer : σ
  trace : List Event

/-- The method `infile.pick`.  The consumer `fn` receives the stream and acts
on a state of its own; the deferred `rc.Close()` runs after it. -/
def infile.pick {σ : Type} (f : infile) (basename : String)
    (fn : Stream → σ → Option String × σ) (w : World) (s : σ) : PickOut σ :=
  match f.basenames.get basename with
  | none =>
    { ret := some ("file " ++ basename ++ " not in zipfile " ++ f.name),
      self := f, world := w, consumer := s, trace := [] }
  | some fl =>
    match fl.Open w with
    | (Except.error e, w1) =>
      { ret := some ("cannot open " ++ basename ++ " inside " ++ f.name ++ ": " ++ e),
        self := f, world := w1, consumer := s, trace := [] }
    | (Except.ok rc, w1) =>
      let r := fn rc s
      { ret := r.1, self := f, world := w1.release rc.handle, consumer := r.2,
        trace := [Event.openEntry rc.handle basename, Event.call rc.handle,
                  Event.close rc.handle] }

/-- How a call ends: it returns an `error` value, or it panics (a nil
pointer dereference). -/
inductive Ret where
  | returned (err : Option String)
  | panicked
deriving DecidableEq

/-- Outcomes of the calls on the destination that the program does not
control: `os.OpenFile`, the `i`-th `w.Create`, the destination side of the
`i`-th `io.Copy`, `w.Close()` and `zf.Close()`. -/
structure Faults where
  openFile : Option String
  create : Nat → Option String
  copy : Nat → Option String
  writerClose : Option String
  fileClose : Option String

/-- The entry that `w.Create(name)` followed by a complete `io.Copy` adds to
the destination archive. -/
def destEntry (name : String) (bytes : List UInt8) : ZipFile :=
  { Name := name, attrDir := false, content := bytes, openErr := none, readErr := none }

/-- The state at the end of the copy loop of `rezip`: `stop` is the early
return if there was one, `written` the entries completed so far. -/
structure LoopOut where
  stop : Option Ret
  world : World
  written : List ZipFile
  trace : List Event

/-- The second loop of `rezip`, from its `i`-th iteration on, with `acc` the
entries already in the destination archive `fname`. -/
def copyEntries (f : infile) (flt : Faults) (fname : String) :
    List String → Nat → World → List ZipFile → LoopOut
  | [], _, w, acc => { stop := none, world := w, written := acc, trace := [] }
  | basename :: rest, i, w, acc =>
    match f.basenames.get basename with
    | none => { stop := some Ret.panicked, world := w, written := acc, trace := [] }
    | some fl =>
      match fl.Open w with
      | (Except.error e, w1) =>
        { stop := some (Ret.returned
            (some ("cannot open " ++ basename ++ " inside " ++ f.name ++ ": " ++ e))),
          world := w1, written := acc, trace := [] }
      | (Except.ok rc, w1) =>
        match flt.create i with
        | some e =>
          { stop := some (Ret.returned (some ("cannot get source file from zip: " ++ e))),
            world := w1, written := acc, trace := [Event.openEntry rc.handle basename] }
        | none =>
          match (flt.copy i).orElse (fun _ => rc.err) with
          | some e =>
            { stop := some (Ret.returned (some ("cannot copy file into zip archive: " ++ e))),
              world := w1, written := acc,
              trace := [Event.openEntry rc.handle basename, Event.create basename] }
          | none =>
            let acc1 := acc ++ [destEntry basename rc.bytes]
            let w2 := (w1.write fname (FileData.unfinished acc1)).release rc.handle
            let r := copyEntries f flt fname rest (i + 1) w2 acc1
            { r with trace := [Event.openEntry rc.handle basename, Event.create basename,
                               Event.close rc.handle] ++ r.trace }

/-- What a call of `rezip` leaves behind. -/
structure RezipOut where
  ret : Ret
  world : World
  trace : List Event

/-- The method `infile.rezip`. -/
def infile.rezip (f : infile) (fname : String) (basenames : List String)
    (flt : Faults) (w : World) : RezipOut :=
  match basenames.find? (fun basename => (f.basenames.get basename).isNone) with
  | some basename =>
    { ret := Ret.returned (some ("required file " ++ basename ++ " is not in " ++ f.name)),
      world := w, trace := [] }
  | none =>
    match flt.openFile with
    | some e =>
      { ret := Ret.returned (some ("cannot open destination zipfile: " ++ e)),
        world := w, trace := [] }
    | none =>
      let (zf, w0) := w.acquire
      let w1 := w0.write fname (FileData.unfinished [])
      let r := copyEntries f flt fname basenames 0 w1 []
      match r.stop with
      | some ret => { ret := ret, world := r.world, trace := Event.openFile zf fname :: r.trace }
      | none =>
        match flt.writerClose with
        | some e =>
          { ret := Ret.returned (some ("cannot close zip writer: " ++ e)),
            world := r.world, trace := Event.openFile zf fname :: r.trace }
        | none =>
          let w2 := (r.world.write fname (FileData.zip r.written)).release zf
          match flt.fileClose with
          | some e =>
            { ret := Ret.returned (some ("cannot close destination zipfile: " ++ e)),
              world := w2, trace := Event.openFile zf fname :: r.trace ++ [Event.close zf] }
          | none =>
            { ret := Ret.returned none,
              world := w2, trace := Event.openFile zf fname :: r.trace ++ [Event.close zf] }

/-- The method `infile.close`. -/
def infile.close (f : infile) (w : World) : World :=
  w.release f.reader.handle

/-- The bytes of the entry indexed under `n` (empty when `n` is no key). -/
def infile.contentOf (f : infile) (n : String) : List UInt8 :=
  match f.basenames.get n with
  | some fl => fl.content
  | none => []

/-- The names given to `w.Create`, in the order of the calls that succeeded. -/
def createdNames : List Event → List String
  | [] => []
  | Event.create n :: rest => n :: createdNames rest
  | _ :: rest => createdNames rest

/-! ## Example data -/

/-- The bytes of an ASCII text. -/
def bytesOf (s : String) : List UInt8 :=
  s.data.map (fun c => UInt8.ofNat c.toNat)

/-- A regular entry that opens and reads without error. -/
def fileEntry (name content : String) : ZipFile :=
  { Name := name, attrDir := false, content := bytesOf content, openErr := none, readErr := none }

/-- The archive of the specification's scenario: `dir/test1`, `test2`, `test3`. -/
def sampleEntries : List ZipFile :=
  [fileEntry "dir/test1" "AAA", fileEntry "test2" "BBB", fileEntry "test3" "CCC"]

/-- A world whose only file is the sample archive. -/
def sampleWorld : World :=
  { fs := [("testdata/test.zip", FileData.zip sampleEntries)], handles := [], next := 0 }

/-- The oracle under which no call on the destination fails. -/
def noFaults : Faults :=
  { openFile := none, create := fun _ => none, copy := fun _ => none,
    writerClose := none, fileClose := none }

/-- The consumer that stores the bytes of the stream it is given. -/
def recordBytes (rc : Stream) (_ : Option (List UInt8)) : Option String × Option (List UInt8) :=
  (rc.err, some rc.bytes)

/-- An archive whose entry `test1` fails its checksum: the stream yields the
bytes and then ends with `zip: checksum error`. -/
def corruptEntries : List ZipFile :=
  [{ Name := "test1", attrDir := false, content := bytesOf "AAA", openErr := none,
     readErr := some "zip: checksum error" }]

/-- A world whose only file is the archive with the corrupt entry. -/
def corruptWorld : World :=
  { fs := [("testdata/test.zip", FileData.zip corruptEntries)], handles := [], next := 0 }

/-- An archive with two files of the same base filename in different
directories. -/
def shadowEntries : List ZipFile :=
  [fileEntry "a/x" "AAA", fileEntry "b/x" "BBB"]

/-- A world whose only file is the archive with the colliding base filename. -/
def shadowWorld : World :=
  { fs := [("in.zip", FileData.zip shadowEntries)], handles := [], next := 0 }

/-! ## The map -/

theorem GoMap.get_set (m : GoMap) (k : String) (v : ZipFile) (k2 : String) :
    (m.set k v).get k2 = if k = k2 then some v else m.get k2 := by
  induction m with
  | nil => simp [GoMap.set, GoMap.get]
  | cons p rest ih =>
    obtain ⟨k1, v1⟩ := p
    by_cases h1 : k1 = k
    · subst h1
      by_cases h2 : k1 = k2 <;> simp [GoMap.set, GoMap.get, h2]
    · by_cases h2 : k1 = k2
      · subst h2
        simp [GoMap.set, GoMap.get, h1, Ne.symm h1]
      · simp [GoMap.set, GoMap.get, h1, h2, ih]

theorem GoMap.mem_keys_iff (m : GoMap) (k : String) :
    k ∈ m.keys ↔ ∃ v, m.get k = some v := by
  induction m with
  | nil => simp [GoMap.keys, GoMap.get]
  | cons p rest ih =>
    obtain ⟨k1, v1⟩ := p
    by_cases h1 : k1 = k
    · simp [GoMap.keys, GoMap.get, h1]
    · have ih2 : k ∈ List.map (fun p => p.1) rest ↔ ∃ v, GoMap.get rest k = some v := ih
      simp [GoMap.keys, GoMap.get, h1, Ne.symm h1, ih2]

theorem GoMap.keys_set_nodup (m : GoMap) (k : String) (v : ZipFile) (h : m.keys.Nodup) :
    (m.set k v).keys.Nodup := by
  induction m with
  | nil => simp [GoMap.set, GoMap.keys]
  | cons p rest ih =>
    obtain ⟨k1, v1⟩ := p
    have hc : k1 ∉ GoMap.keys rest ∧ (GoMap.keys rest).Nodup := by
      simpa [GoMap.keys] using h
    by_cases h1 : k1 = k
    · subst h1
      simpa [GoMap.set, GoMap.keys] using h
    · have hn : k1 ∉ GoMap.keys (GoMap.set rest k v) := by
        intro hmem
        obtain ⟨v2, hv2⟩ := (GoMap.mem_keys_iff _ _).1 hmem
        rw [GoMap.get_set] at hv2
        simp [Ne.symm h1] at hv2
        exact hc.1 ((GoMap.mem_keys_iff _ _).2 ⟨v2, hv2⟩)
      have := ih hc.2
      simp only [GoMap.set, h1, if_false]
      exact List.nodup_cons.2 ⟨hn, this⟩

/-! ## The index -/

/-- The entries that `newInfile` stores under key `k`. -/
theorem indexEntries_get (files : List ZipFile) (m : GoMap) (k : String) :
    (indexEntries files m).get k =
      ((files.filter (fun e => !e.IsDir && pathBase e.Name == k)).getLast?).orElse
        (fun _ => m.get k) := by
  induction files generalizing m with
  | nil => simp [indexEntries]
  | cons e rest ih =>
    cases hd : e.IsDir with
    | true =>
      have hp : (!e.IsDir && pathBase e.Name == k) = false := by simp [hd]
      rw [List.filter_cons, hp]
      simpa [indexEntries, hd] using ih m
    | false =>
      by_cases hk : pathBase e.Name = k
      · have hp : (!e.IsDir && pathBase e.Name == k) = true := by simp [hd, hk]
        rw [List.filter_cons, hp, if_pos rfl, List.getLast?_cons]
        have h1 : indexEntries (e :: rest) m = indexEntries rest (m.set k e) := by
          simp [indexEntries, hd, hk]
        rw [h1, ih, GoMap.get_set, if_pos rfl]
        cases (List.filter (fun e => !e.IsDir && pathBase e.Name == k) rest).getLast? <;> rfl
      · have hp : (!e.IsDir && pathBase e.Name == k) = false := by simp [hd, hk]
        have h1 : indexEntries (e :: rest) m = indexEntries rest (m.set (pathBase e.Name) e) := by
          simp [indexEntries, hd]
        rw [List.filter_cons, hp, h1, ih, GoMap.get_set, if_neg hk]
        simp

theorem indexEntries_keys_nodup (files : List ZipFile) (m : GoMap) (h : m.keys.Nodup) :
    (indexEntries files m).keys.Nodup := by
  induction files generalizing m with
  | nil => simpa [indexEntries] using h
  | cons e rest ih =>
    by_cases hd : e.IsDir = true
    · simpa [indexEntries, hd] using ih m h
    · simpa [indexEntries, hd] using ih _ (GoMap.keys_set_nodup m _ e h)

/-! ## Base names -/

theorem lastIndexByte_none (l : List Char) (c : Char) (h : lastIndexByte l c = none) :
    c ∉ l := by
  induction l with
  | nil => simp
  | cons x xs ih =>
    simp only [lastIndexByte] at h
    cases hr : lastIndexByte xs c with
    | some i => simp [hr] at h
    | none =>
      rw [hr] at h
      by_cases hx : x = c
      · simp [hx] at h
      · simp only [List.mem_cons, not_or]
        exact ⟨fun hc => hx hc.symm, ih hr⟩

theorem lastIndexByte_some (l : List Char) (c : Char) (i : Nat)
    (h : lastIndexByte l c = some i) :
    c ∉ l.drop (i + 1) ∧ l[i]? = some c := by
  induction l generalizing i with
  | nil => simp [lastIndexByte] at h
  | cons x xs ih =>
    simp only [lastIndexByte] at h
    cases hr : lastIndexByte xs c with
    | some j =>
      rw [hr] at h
      have hj : j + 1 = i := by simpa using h
      subst hj
      simpa using ih j hr
    | none =>
      rw [hr] at h
      by_cases hx : x = c
      · have hi : i = 0 := by simpa [hx] using h.symm
        subst hi
        simpa [hx] using lastIndexByte_none xs c hr
      · simp [hx] at h

theorem string_ne_empty_iff (s : String) : s ≠ "" ↔ s.data ≠ [] := by
  rw [Ne, String.ext_iff]

/-- The base name of a name that does not end in a slash is non-empty and has
no slash. -/
theorem pathBase_flat (name : String) (h : endsWithSlash name = false) :
    pathBase name ≠ "" ∧ '/' ∉ (pathBase name).data := by
  by_cases he : name = ""
  · subst he
    decide
  · have hne : name.data ≠ [] := (string_ne_empty_iff name).1 he
    have hlast : name.data.getLast hne ≠ '/' := by
      intro hc
      have : name.data.getLast? = some '/' := by
        rw [List.getLast?_eq_getLast _ hne, hc]
      simp [endsWithSlash, this] at h
    have hstrip : name.data.rdropWhile (fun c => c == '/') = name.data := by
      rw [List.rdropWhile_eq_self_iff]
      intro hl
      simpa using hlast
    simp only [pathBase, he, if_false, hstrip]
    cases hi : lastIndexByte name.data '/' with
    | none =>
      have hno := lastIndexByte_none _ _ hi
      simp only [hne, if_false]
      exact ⟨(string_ne_empty_iff _).2 hne, hno⟩
    | some i =>
      obtain ⟨hno, hget⟩ := lastIndexByte_some _ _ _ hi
      have hdrop : name.data.drop (i + 1) ≠ [] := by
        intro hd
        have hlen : name.data.length ≤ i + 1 := List.drop_eq_nil_iff.1 hd
        have hi2 : i < name.data.length := by
          by_contra hcon
          rw [List.getElem?_eq_none (Nat.le_of_not_lt hcon)] at hget
          exact absurd hget (by simp)
        have hidx : i = name.data.length - 1 := by omega
        apply hlast
        rw [List.getLast_eq_getElem]
        have := List.getElem?_eq_getElem hi2
        rw [hget] at this
        simp only [← hidx]
        exact (Option.some.inj this).symm
      simp only [hdrop, if_false]
      exact ⟨(string_ne_empty_iff _).2 hdrop, hno⟩

theorem endsWithSlash_of_flat (k : String) (h : '/' ∉ k.data) : endsWithSlash k = false := by
  cases hl : k.data.getLast? with
  | none => simp [endsWithSlash, hl]
  | some c =>
    have hc : c ∈ k.data := List.mem_of_getLast?_eq_some hl
    have : c ≠ '/' := fun e => h (e ▸ hc)
    simp [endsWithSlash, hl, this]

theorem lastIndexByte_of_not_mem (l : List Char) (c : Char) (h : c ∉ l) :
    lastIndexByte l c = none := by
  cases hi : lastIndexByte l c with
  | none => rfl
  | some i =>
    obtain ⟨_, hget⟩ := lastIndexByte_some _ _ _ hi
    exact absurd (List.getElem?_mem hget) h

/-- A non-empty name without a slash is its own base name. -/
theorem pathBase_of_flat (k : String) (h1 : k ≠ "") (h2 : '/' ∉ k.data) : pathBase k = k := by
  have hne : k.data ≠ [] := (string_ne_empty_iff k).1 h1
  have hstrip : k.data.rdropWhile (fun c => c == '/') = k.data := by
    rw [List.rdropWhile_eq_self_iff]
    intro hl
    have : k.data.getLast hl ∈ k.data := List.getLast_mem hl
    have hne2 : k.data.getLast hl ≠ '/' := fun e => h2 (e ▸ this)
    simpa using hne2
  simp only [pathBase, h1, if_false, hstrip, lastIndexByte_of_not_mem _ _ h2, hne]

/-! ## The world -/

theorem World.read_write (w : World) (path : String) (d : FileData) :
    (w.write path d).read path = some d := by
  simp [World.read, World.write]

theorem World.read_release (w : World) (h : Nat) (path : String) :
    (w.release h).read path = w.read path := rfl

theorem World.handles_acquire_release (w : World) (path : String) (d : FileData) :
    ((w.acquire.2.write path d).release w.acquire.1).handles = w.handles := by
  simp [World.acquire, World.write, World.release]

theorem newInfile_ok (w : World) (fname : String) (files : List ZipFile)
    (h : w.read fname = some (FileData.zip files)) :
    newInfile fname w =
      (Except.ok { name := fname, reader := { handle := w.next, File := files },
                   basenames := indexEntries files [] }, w.acquire.2) := by
  simp [newInfile, openReader, h, World.acquire]

/-! ## The copy loop -/

theorem copyEntries_cons_ok (f : infile) (flt : Faults) (fname b : String) (rest : List String)
    (i : Nat) (w : World) (acc : List ZipFile) (fl : ZipFile)
    (hg : f.basenames.get b = some fl) (ho : fl.openErr = none) (hr : fl.readErr = none)
    (hc : flt.create i = none) (hp : flt.copy i = none) :
    copyEntries f flt fname (b :: rest) i w acc =
      { copyEntries f flt fname rest (i + 1)
          ((w.acquire.2.write fname
            (FileData.unfinished (acc ++ [destEntry b fl.content]))).release w.acquire.1)
          (acc ++ [destEntry b fl.content]) with
        trace := [Event.openEntry w.next b, Event.create b, Event.close w.next] ++
          (copyEntries f flt fname rest (i + 1)
            ((w.acquire.2.write fname
              (FileData.unfinished (acc ++ [destEntry b fl.content]))).release w.acquire.1)
            (acc ++ [destEntry b fl.content])).trace } := by
  simp [copyEntries, hg, ZipFile.Open, ho, hr, hc, hp, World.acquire]

theorem copyEntries_cons_inv (f : infile) (flt : Faults) (fname b : String) (rest : List String)
    (i : Nat) (w : World) (acc : List ZipFile)
    (h : (copyEntries f flt fname (b :: rest) i w acc).stop = none) :
    ∃ fl, f.basenames.get b = some fl ∧ fl.openErr = none ∧ fl.readErr = none ∧
      flt.create i = none ∧ flt.copy i = none := by
  cases hg : f.basenames.get b with
  | none => simp [copyEntries, hg] at h
  | some fl =>
    cases ho : fl.openErr with
    | some e => simp [copyEntries, hg, ZipFile.Open, ho] at h
    | none =>
      cases hc : flt.create i with
      | some e => simp [copyEntries, hg, ZipFile.Open, ho, hc, World.acquire] at h
      | none =>
        cases hp : flt.copy i with
        | some e => simp [copyEntries, hg, ZipFile.Open, ho, hc, hp, World.acquire] at h
        | none =>
          cases hr : fl.readErr with
          | some e => simp [copyEntries, hg, ZipFile.Open, ho, hc, hp, hr, World.acquire] at h
          | none => exact ⟨fl, rfl, ho, hr, rfl, rfl⟩

theorem infile.contentOf_eq (f : infile) (n : String) (fl : ZipFile)
    (h : f.basenames.get n = some fl) : f.contentOf n = fl.content := by
  simp [infile.contentOf, h]

/-- A loop that runs to its end has copied every name, in order, and has
closed every stream it opened. -/
theorem copyEntries_done (f : infile) (flt : Faults) (fname : String) (names : List String)
    (i : Nat) (w : World) (acc : List ZipFile)
    (h : (copyEntries f flt fname names i w acc).stop = none) :
    (copyEntries f flt fname names i w acc).written =
        acc ++ names.map (fun n => destEntry n (f.contentOf n)) ∧
      (copyEntries f flt fname names i w acc).world.handles = w.handles ∧
      createdNames (copyEntries f flt fname names i w acc).trace = names ∧
      (∀ n ∈ names, ∃ fl, f.basenames.get n = some fl ∧ fl.openErr = none) := by
  induction names generalizing i w acc with
  | nil => simp [copyEntries, createdNames]
  | cons b rest ih =>
    obtain ⟨fl, hg, ho, hr, hc, hp⟩ := copyEntries_cons_inv f flt fname b rest i w acc h
    rw [copyEntries_cons_ok f flt fname b rest i w acc fl hg ho hr hc hp] at h ⊢
    obtain ⟨h1, h2, h3, h4⟩ := ih (i + 1) _ _ h
    refine ⟨?_, ?_, ?_, ?_⟩
    · simp [h1, infile.contentOf_eq f b fl hg]
    · rw [h2]
      exact World.handles_acquire_release w fname _
    · simp [createdNames, h3]
    · intro n hn
      rcases List.mem_cons.1 hn with rfl | hn
      · exact ⟨fl, hg, ho⟩
      · exact h4 n hn

/-- Without a failure the loop runs to its end. -/
theorem copyEntries_runs (f : infile) (flt : Faults) (fname : String) (names : List String)
    (i : Nat) (w : World) (acc : List ZipFile)
    (hin : ∀ n ∈ names, ∃ fl, f.basenames.get n = some fl ∧ fl.openErr = none ∧
      fl.readErr = none)
    (hc : ∀ j, flt.create j = none) (hp : ∀ j, flt.copy j = none) :
    (copyEntries f flt fname names i w acc).stop = none := by
  induction names generalizing i w acc with
  | nil => simp [copyEntries]
  | cons b rest ih =>
    obtain ⟨fl, hg, ho, hr⟩ := hin b (List.mem_cons_self _ _)
    rw [copyEntries_cons_ok f flt fname b rest i w acc fl hg ho hr (hc i) (hp i)]
    exact ih (i + 1) _ _ (fun n hn => hin n (List.mem_cons_of_mem _ hn))

/-- Whatever the outcome, the names given to `w.Create` are among the names
of the list. -/
theorem copyEntries_created (f : infile) (flt : Faults) (fname : String) (names : List String)
    (i : Nat) (w : World) (acc : List ZipFile) :
    ∀ n ∈ createdNames (copyEntries f flt fname names i w acc).trace, n ∈ names := by
  induction names generalizing i w acc with
  | nil => simp [copyEntries, createdNames]
  | cons b rest ih =>
    intro n hn
    unfold copyEntries at hn
    split at hn
    · simp [createdNames] at hn
    · split at hn
      · simp [createdNames] at hn
      · split at hn
        · simp [createdNames] at hn
        · split at hn
          · simp only [createdNames, List.mem_singleton] at hn
            simp [hn]
          · simp only [createdNames, List.cons_append, List.nil_append, List.mem_cons] at hn
            rcases hn with rfl | hn
            · simp
            · exact List.mem_cons_of_mem _ (ih _ _ _ n hn)

/-! ## Indexing -/

theorem isDir_false_no_slash (e : ZipFile) (h : e.IsDir = false) :
    endsWithSlash e.Name = false := by
  simp only [ZipFile.IsDir, Bool.or_eq_false_iff] at h
  exact h.2

theorem indexEntries_get_some (files : List ZipFile) (k : String) (fl : ZipFile)
    (h : (indexEntries files []).get k = some fl) :
    fl ∈ files ∧ fl.IsDir = false ∧ pathBase fl.Name = k := by
  rw [indexEntries_get] at h
  have h2 : (files.filter (fun e => !e.IsDir && pathBase e.Name == k)).getLast? = some fl := by
    cases hl : (files.filter (fun e => !e.IsDir && pathBase e.Name == k)).getLast? with
    | none => simp [hl, GoMap.get] at h
    | some x => simpa [hl] using h
  have hm := List.mem_of_getLast?_eq_some h2
  simpa using List.mem_filter.1 hm

theorem index_key_flat (files : List ZipFile)
    (hslash : ∀ e ∈ files, e.IsDir = false → endsWithSlash e.Name = false)
    (k : String) (fl : ZipFile) (h : (indexEntries files []).get k = some fl) :
    k ≠ "" ∧ '/' ∉ k.data := by
  obtain ⟨hm, hd, hk⟩ := indexEntries_get_some files k fl h
  rw [← hk]
  exact pathBase_flat _ (hslash fl hm hd)

/-- C6: the index that `newInfile` builds over the entries of an archive, in
directory order, holds under each key the last entry that is not a directory
and whose `path.Base(Name)` is the key, and holds no key without such an
entry; every indexed entry is a non-directory entry of the archive. -/
theorem newInfile_index_last_wins (w : World) (fname : String) (files : List ZipFile)
    (hfs : w.read fname = some (FileData.zip files)) :
    ∃ f w1, newInfile fname w = (Except.ok f, w1) ∧ f.name = fname ∧
      (∀ k, f.basenames.get k =
        (files.filter (fun e => !e.IsDir && pathBase e.Name == k)).getLast?) ∧
      (∀ k e, f.basenames.get k = some e → e ∈ files ∧ e.IsDir = false ∧ pathBase e.Name = k) := by
  refine ⟨_, _, newInfile_ok w fname files hfs, rfl, ?_, ?_⟩
  · intro k
    show (indexEntries files []).get k = _
    rw [indexEntries_get]
    cases (files.filter (fun e => !e.IsDir && pathBase e.Name == k)).getLast? <;> rfl
  · intro k e h
    exact indexEntries_get_some files k e h

theorem newInfile_index_last_wins_witness :
    ∃ f w1, newInfile "testdata/test.zip" sampleWorld = (Except.ok f, w1) ∧
      f.name = "testdata/test.zip" ∧
      (∀ k, f.basenames.get k =
        (sampleEntries.filter (fun e => !e.IsDir && pathBase e.Name == k)).getLast?) ∧
      (∀ k e, f.basenames.get k = some e →
        e ∈ sampleEntries ∧ e.IsDir = false ∧ pathBase e.Name = k) :=
  newInfile_index_last_wins sampleWorld "testdata/test.zip" sampleEntries (by decide)

/-! ## pick -/

/-- C5: for a basename that is no key of the index, `pick` returns the error
`file <basename> not in zipfile <name>`, whose text contains the basename and
the archive name; it opens no stream and does not call the consumer: no event
happens, the world and the consumer's state are unchanged. -/
theorem pick_not_found {σ : Type} (f : infile) (basename : String)
    (fn : Stream → σ → Option String × σ) (w : World) (s : σ)
    (h : f.basenames.get basename = none) :
    (f.pick basename fn w s).ret = some ("file " ++ basename ++ " not in zipfile " ++ f.name) ∧
      basename.data <:+: ("file " ++ basename ++ " not in zipfile " ++ f.name).data ∧
      f.name.data <:+: ("file " ++ basename ++ " not in zipfile " ++ f.name).data ∧
      (f.pick basename fn w s).trace = [] ∧
      (f.pick basename fn w s).world = w ∧
      (f.pick basename fn w s).consumer = s := by
  refine ⟨by simp [infile.pick, h], ?_, ?_, by simp [infile.pick, h], by simp [infile.pick, h],
    by simp [infile.pick, h]⟩
  · exact ⟨"file ".data, " not in zipfile ".data ++ f.name.data, by simp [String.data_append]⟩
  · exact ⟨"file ".data ++ basename.data ++ " not in zipfile ".data, [],
      by simp [String.data_append]⟩

theorem pick_not_found_witness :
    ∃ f w1, newInfile "testdata/test.zip" sampleWorld = (Except.ok f, w1) ∧
      (f.pick "missing" recordBytes w1 none).ret =
        some "file missing not in zipfile testdata/test.zip" ∧
      (f.pick "missing" recordBytes w1 none).trace = [] ∧
      (f.pick "missing" recordBytes w1 none).consumer = none := by
  refine ⟨_, _, newInfile_ok sampleWorld _ sampleEntries (by decide), ?_⟩
  have h := pick_not_found
    { name := "testdata/test.zip", reader := { handle := 0, File := sampleEntries },
      basenames := indexEntries sampleEntries [] }
    "missing" recordBytes sampleWorld.acquire.2 none (by decide)
  exact ⟨h.1, h.2.2.2.1, h.2.2.2.2.2⟩

theorem pick_opened {σ : Type} (f : infile) (basename : String)
    (fn : Stream → σ → Option String × σ) (w : World) (s : σ) (fl : ZipFile)
    (hg : f.basenames.get basename = some fl) (ho : fl.openErr = none) :
    f.pick basename fn w s =
      { ret := (fn { handle := w.next, bytes := fl.content, err := fl.readErr } s).1,
        self := f,
        world := w.acquire.2.release w.next,
        consumer := (fn { handle := w.next, bytes := fl.content, err := fl.readErr } s).2,
        trace := [Event.openEntry w.next basename, Event.call w.next, Event.close w.next] } := by
  simp [infile.pick, hg, ZipFile.Open, ho, World.acquire]

/-- C7: when `pick` opens the read stream of an indexed entry, the events of
the call are: open the stream, call the consumer, close the stream; the stream
is closed exactly once, after the consumer, whatever the consumer returns, and
the open handles after `pick` are those before it. -/
theorem pick_closes_stream {σ : Type} (f : infile) (basename : String)
    (fn : Stream → σ → Option String × σ) (w : World) (s : σ) (fl : ZipFile)
    (hg : f.basenames.get basename = some fl) (ho : fl.openErr = none) :
    (f.pick basename fn w s).trace =
        [Event.openEntry w.next basename, Event.call w.next, Event.close w.next] ∧
      (f.pick basename fn w s).trace.count (Event.close w.next) = 1 ∧
      (f.pick basename fn w s).world.handles = w.handles := by
  rw [pick_opened f basename fn w s fl hg ho]
  refine ⟨rfl, ?_, ?_⟩
  · simp [List.count_cons]
  · simp [World.acquire, World.release]

theorem pick_closes_stream_witness :
    (({ name := "testdata/test.zip", reader := { handle := 0, File := sampleEntries },
        basenames := indexEntries sampleEntries [] } : infile).pick "test2"
          (fun _ (n : Nat) => (some "write error", n + 1))
          { fs := [], handles := [0], next := 1 } 0).world.handles = [0] :=
  (pick_closes_stream _ "test2" _ _ 0 (fileEntry "test2" "BBB") (by decide) (by decide)).2.2

/-- C9: for an indexed basename whose entry opens without error, `pick` calls
the consumer exactly once, on the entry's stream, returns exactly the value
the consumer returns, and leaves the receiver (its name and its index)
unchanged. -/
theorem pick_returns_consumer_result {σ : Type} (f : infile) (basename : String)
    (fn : Stream → σ → Option String × σ) (w : World) (s : σ) (fl : ZipFile)
    (hg : f.basenames.get basename = some fl) (ho : fl.openErr = none) :
    ∃ rc : Stream, rc.bytes = fl.content ∧
      (f.pick basename fn w s).ret = (fn rc s).1 ∧
      (f.pick basename fn w s).consumer = (fn rc s).2 ∧
      (f.pick basename fn w s).trace.count (Event.call rc.handle) = 1 ∧
      (∀ h, Event.call h ∈ (f.pick basename fn w s).trace → h = rc.handle) ∧
      (f.pick basename fn w s).self.name = f.name ∧
      (f.pick basename fn w s).self.basenames = f.basenames := by
  rw [pick_opened f basename fn w s fl hg ho]
  refine ⟨{ handle := w.next, bytes := fl.content, err := fl.readErr }, rfl, rfl, rfl, ?_, ?_,
    rfl, rfl⟩
  · simp [List.count_cons]
  · intro h hh
    simpa using hh

theorem pick_returns_consumer_result_witness :
    ∃ rc : Stream, rc.bytes = (fileEntry "test2" "BBB").content ∧
      (({ name := "testdata/test.zip", reader := { handle := 0, File := sampleEntries },
          basenames := indexEntries sampleEntries [] } : infile).pick "test2"
            (fun _ (n : Nat) => (some "write error", n + 1))
            { fs := [], handles := [0], next := 1 } 0).ret = some "write error" ∧
      (({ name := "testdata/test.zip", reader := { handle := 0, File := sampleEntries },
          basenames := indexEntries sampleEntries [] } : infile).pick "test2"
            (fun _ (n : Nat) => (some "write error", n + 1))
            { fs := [], handles := [0], next := 1 } 0).consumer = 1 := by
  obtain ⟨rc, h1, h2, h3, _⟩ := pick_returns_consumer_result
    { name := "testdata/test.zip", reader := { handle := 0, File := sampleEntries },
      basenames := indexEntries sampleEntries [] }
    "test2" (fun _ (n : Nat) => (some "write error", n + 1))
    { fs := [], handles := [0], next := 1 } 0 (fileEntry "test2" "BBB") (by decide) (by decide)
  exact ⟨rc, h1, h2, h3⟩

/-! ## rezip -/

theorem rezip_validated (f : infile) (names : List String)
    (h : ∀ n ∈ names, ∃ fl, f.basenames.get n = some fl) :
    names.find? (fun basename => (f.basenames.get basename).isNone) = none := by
  rw [List.find?_eq_none]
  intro n hn
  obtain ⟨fl, hfl⟩ := h n hn
  simp [hfl]

theorem createdNames_append_close (l : List Event) (h : Nat) :
    createdNames (l ++ [Event.close h]) = createdNames l := by
  induction l with
  | nil => rfl
  | cons e rest ih => cases e <;> simp [createdNames, ih]

/-- The copy loop never stops early with a `nil` error. -/
theorem copyEntries_stop_ne_nil (f : infile) (flt : Faults) (fname : String)
    (names : List String) (i : Nat) (w : World) (acc : List ZipFile) :
    (copyEntries f flt fname names i w acc).stop ≠ some (Ret.returned none) := by
  induction names generalizing i w acc with
  | nil => simp [copyEntries]
  | cons b rest ih =>
    unfold copyEntries
    split
    · simp
    · split
      · simp
      · split
        · simp
        · split
          · simp
          · exact ih _ _ _

/-- A call of `rezip` that returns `nil` has left at the destination a complete
archive holding one entry per name of the list, in list order. -/
theorem rezip_success (f : infile) (fname : String) (names : List String) (flt : Faults)
    (w : World) (h : (f.rezip fname names flt w).ret = Ret.returned none) :
    (f.rezip fname names flt w).world.read fname =
        some (FileData.zip (names.map (fun n => destEntry n (f.contentOf n)))) ∧
      (f.rezip fname names flt w).world.handles = w.handles ∧
      createdNames (f.rezip fname names flt w).trace = names ∧
      (∀ n ∈ names, ∃ fl, f.basenames.get n = some fl ∧ fl.openErr = none) := by
  cases hf : names.find? (fun basename => (f.basenames.get basename).isNone) with
  | some b => simp [infile.rezip, hf] at h
  | none =>
    cases ho : flt.openFile with
    | some e => simp [infile.rezip, hf, ho] at h
    | none =>
      cases hs : (copyEntries f flt fname names 0
          (w.acquire.2.write fname (FileData.unfinished [])) []).stop with
      | some r =>
        simp only [infile.rezip, hf, ho, World.acquire] at h
        simp only [World.acquire] at hs
        simp only [hs] at h
        rw [h] at hs
        exact absurd hs (copyEntries_stop_ne_nil _ _ _ _ _ _ _)
      | none =>
        obtain ⟨h1, h2, h3, h4⟩ := copyEntries_done f flt fname names 0 _ [] hs
        simp only [World.acquire] at hs h1 h2 h3
        cases hw : flt.writerClose with
        | some e => simp [infile.rezip, hf, ho, World.acquire, hs, hw] at h
        | none =>
          cases hc : flt.fileClose with
          | some e => simp [infile.rezip, hf, ho, World.acquire, hs, hw, hc] at h
          | none =>
            simp only [infile.rezip, hf, ho, World.acquire, hs, hw, hc]
            refine ⟨?_, ?_, ?_, h4⟩
            · rw [World.read_release, World.read_write, h1]
              rfl
            · show (copyEntries f flt fname names 0 _ []).world.handles.erase w.next = w.handles
              rw [h2]
              simp [World.write]
            · simp only [createdNames]
              exact (createdNames_append_close _ _).trans h3

/-- Without a failing step, `rezip` returns `nil`. -/
theorem rezip_runs (f : infile) (fname : String) (names : List String) (flt : Faults)
    (w : World)
    (hin : ∀ n ∈ names, ∃ fl, f.basenames.get n = some fl ∧ fl.openErr = none ∧
      fl.readErr = none)
    (hopen : flt.openFile = none) (hcreate : ∀ i, flt.create i = none)
    (hcopy : ∀ i, flt.copy i = none) (hwc : flt.writerClose = none)
    (hfc : flt.fileClose = none) :
    (f.rezip fname names flt w).ret = Ret.returned none := by
  have hf := rezip_validated f names (fun n hn => (hin n hn).imp fun _ h => h.1)
  have hs := copyEntries_runs f flt fname names 0
    (w.acquire.2.write fname (FileData.unfinished [])) [] hin hcreate hcopy
  simp only [World.acquire] at hs
  simp [infile.rezip, hf, hopen, World.acquire, hs, hwc, hfc]

/-- C1: when the list holds a name that is no key of the index, `rezip`
returns the error `required file <n> is not in <name>` for the first such name
`n` of the list, and it does so before any other step: no event happens (the
destination is not opened, no entry stream is opened) and the world, file
system included, is unchanged. -/
theorem rezip_missing_entry (f : infile) (fname : String) (names : List String)
    (flt : Faults) (w : World) (h : ∃ n ∈ names, f.basenames.get n = none) :
    ∃ pre n post, names = pre ++ n :: post ∧
      (∀ m ∈ pre, f.basenames.get m ≠ none) ∧ f.basenames.get n = none ∧
      (f.rezip fname names flt w).ret =
        Ret.returned (some ("required file " ++ n ++ " is not in " ++ f.name)) ∧
      (f.rezip fname names flt w).trace = [] ∧
      (f.rezip fname names flt w).world = w := by
  cases hf : names.find? (fun basename => (f.basenames.get basename).isNone) with
  | none =>
    obtain ⟨n, hn, hnone⟩ := h
    rw [List.find?_eq_none] at hf
    exact absurd (by simp [hnone]) (hf n hn)
  | some b =>
    obtain ⟨hb, pre, post, hsplit, hpre⟩ := List.find?_eq_some.1 hf
    refine ⟨pre, b, post, hsplit, ?_, ?_, ?_, ?_, ?_⟩
    · intro m hm hnone
      have := hpre m hm
      simp [hnone] at this
    · simpa using hb
    · simp [infile.rezip, hf]
    · simp [infile.rezip, hf]
    · simp [infile.rezip, hf]

theorem rezip_missing_entry_witness :
    ∃ pre n post, ["test1", "missing"] = pre ++ n :: post ∧
      (∀ m ∈ pre, (indexEntries sampleEntries []).get m ≠ none) ∧
      (indexEntries sampleEntries []).get n = none ∧
      (({ name := "testdata/test.zip", reader := { handle := 0, File := sampleEntries },
          basenames := indexEntries sampleEntries [] } : infile).rezip "out.zip"
            ["test1", "missing"] noFaults sampleWorld.acquire.2).ret =
        Ret.returned (some ("required file " ++ n ++ " is not in " ++ "testdata/test.zip")) ∧
      (({ name := "testdata/test.zip", reader := { handle := 0, File := sampleEntries },
          basenames := indexEntries sampleEntries [] } : infile).rezip "out.zip"
            ["test1", "missing"] noFaults sampleWorld.acquire.2).trace = [] ∧
      (({ name := "testdata/test.zip", reader := { handle := 0, File := sampleEntries },
          basenames := indexEntries sampleEntries [] } : infile).rezip "out.zip"
            ["test1", "missing"] noFaults sampleWorld.acquire.2).world = sampleWorld.acquire.2 :=
  rezip_missing_entry
    { name := "testdata/test.zip", reader := { handle := 0, File := sampleEntries },
      basenames := indexEntries sampleEntries [] }
    "out.zip" ["test1", "missing"] noFaults sampleWorld.acquire.2
    ⟨"missing", by decide, by decide⟩

/-- C2: when every name of the list is indexed and no step fails (every entry
opens and reads without error, and the oracle reports no failure of
`os.OpenFile`, `w.Create`, the copy, `w.Close` or `zf.Close`), `rezip` returns
`nil` and the destination holds a complete archive of exactly as many entries
as the list has names, the `i`-th one named after the `i`-th name of the list
and holding the bytes of the entry indexed under that name; `w.Create` was
called with the names in list order. -/
theorem rezip_writes_list_order (f : infile) (fname : String) (names : List String)
    (flt : Faults) (w : World)
    (hin : ∀ n ∈ names, ∃ fl, f.basenames.get n = some fl ∧ fl.openErr = none ∧
      fl.readErr = none)
    (hopen : flt.openFile = none) (hcreate : ∀ i, flt.create i = none)
    (hcopy : ∀ i, flt.copy i = none) (hwc : flt.writerClose = none)
    (hfc : flt.fileClose = none) :
    (f.rezip fname names flt w).ret = Ret.returned none ∧
      ∃ entries, (f.rezip fname names flt w).world.read fname = some (FileData.zip entries) ∧
        entries.length = names.length ∧
        (∀ i (hi : i < names.length), ∃ fl, f.basenames.get names[i] = some fl ∧
          entries[i]? = some (destEntry names[i] fl.content)) ∧
        createdNames (f.rezip fname names flt w).trace = names := by
  have hret := rezip_runs f fname names flt w hin hopen hcreate hcopy hwc hfc
  obtain ⟨h1, _, h3, _⟩ := rezip_success f fname names flt w hret
  refine ⟨hret, _, h1, by simp, ?_, h3⟩
  intro i hi
  obtain ⟨fl, hg, _, _⟩ := hin names[i] (List.getElem_mem hi)
  refine ⟨fl, hg, ?_⟩
  rw [List.getElem?_map, List.getElem?_eq_getElem hi, Option.map_some',
    infile.contentOf_eq f _ fl hg]

theorem rezip_writes_list_order_witness :
    (({ name := "testdata/test.zip", reader := { handle := 0, File := sampleEntries },
        basenames := indexEntries sampleEntries [] } : infile).rezip "testdata/out.zip"
          ["test2", "test1"] noFaults sampleWorld.acquire.2).ret = Ret.returned none :=
  (rezip_writes_list_order
    { name := "testdata/test.zip", reader := { handle := 0, File := sampleEntries },
      basenames := indexEntries sampleEntries [] }
    "testdata/out.zip" ["test2", "test1"] noFaults sampleWorld.acquire.2
    (by decide) rfl (fun _ => rfl) (fun _ => rfl) rfl rfl).1

/-- C8 (the code at a failing input): the archive's entry `test1` fails its
checksum, so `io.Copy` fails and `rezip` returns the copy error; at that point
the destination file (handle 1) and the entry's stream (handle 2) are still
open, next to the archive reader (handle 0). -/
theorem rezip_leaks_on_copy_error :
    ∃ f w1, newInfile "testdata/test.zip" corruptWorld = (Except.ok f, w1) ∧
      w1.handles = [0] ∧
      (f.rezip "testdata/out.zip" ["test1"] noFaults w1).ret =
        Ret.returned (some "cannot copy file into zip archive: zip: checksum error") ∧
      (f.rezip "testdata/out.zip" ["test1"] noFaults w1).trace =
        [Event.openFile 1 "testdata/out.zip", Event.openEntry 2 "test1", Event.create "test1"] ∧
      (f.rezip "testdata/out.zip" ["test1"] noFaults w1).world.handles = [2, 1, 0] := by
  refine ⟨_, _, newInfile_ok corruptWorld _ corruptEntries (by decide), ?_, ?_, ?_, ?_⟩ <;> decide

/-- Every name that `rezip` gives to `w.Create` is a key of the index. -/
theorem rezip_created (f : infile) (fname : String) (names : List String) (flt : Faults)
    (w : World) :
    ∀ n ∈ createdNames (f.rezip fname names flt w).trace,
      ∃ fl, f.basenames.get n = some fl := by
  intro n hn
  cases hf : names.find? (fun basename => (f.basenames.get basename).isNone) with
  | some b => simp [infile.rezip, hf, createdNames] at hn
  | none =>
    have hkey : ∀ m ∈ names, ∃ fl, f.basenames.get m = some fl := by
      intro m hm
      have := (List.find?_eq_none.1 hf) m hm
      cases hg : f.basenames.get m with
      | none => simp [hg] at this
      | some fl => exact ⟨fl, rfl⟩
    apply hkey
    apply copyEntries_created f flt fname names 0
      (w.acquire.2.write fname (FileData.unfinished [])) []
    simp only [World.acquire]
    cases ho : flt.openFile with
    | some e => simp [infile.rezip, hf, ho, createdNames] at hn
    | none =>
      simp only [infile.rezip, hf, ho, World.acquire] at hn
      split at hn
      · simpa [createdNames] using hn
      · split at hn
        · simpa [createdNames] using hn
        · split at hn
          · simp only [createdNames] at hn
            exact (createdNames_append_close _ _) ▸ hn
          · simp only [createdNames] at hn
            exact (createdNames_append_close _ _) ▸ hn

/-- C10: over an archive whose non-directory entries have names that do not
end in a slash, every key of the index built by `newInfile` is non-empty and
has no slash, an entry with the empty name is indexed under `"."`, and so
every name that `rezip` gives to `w.Create` is non-empty and has no slash. -/
theorem index_keys_flat (w : World) (fname : String) (files : List ZipFile)
    (hfs : w.read fname = some (FileData.zip files))
    (hslash : ∀ e ∈ files, e.IsDir = false → endsWithSlash e.Name = false) :
    ∃ f w1, newInfile fname w = (Except.ok f, w1) ∧
      (∀ k ∈ f.basenames.keys, k ≠ "" ∧ '/' ∉ k.data) ∧
      (∀ e ∈ files, e.IsDir = false → e.Name = "" → "." ∈ f.basenames.keys) ∧
      (∀ dest names flt w2, ∀ n ∈ createdNames (f.rezip dest names flt w2).trace,
        n ≠ "" ∧ '/' ∉ n.data) := by
  refine ⟨_, _, newInfile_ok w fname files hfs, ?_, ?_, ?_⟩
  · intro k hk
    obtain ⟨fl, hfl⟩ := (GoMap.mem_keys_iff _ _).1 hk
    exact index_key_flat files hslash k fl hfl
  · intro e he hd hn
    rw [GoMap.mem_keys_iff]
    show ∃ v, (indexEntries files []).get "." = some v
    rw [indexEntries_get]
    have hmem : e ∈ files.filter (fun e => !e.IsDir && pathBase e.Name == ".") := by
      rw [List.mem_filter]
      refine ⟨he, ?_⟩
      rw [hd, hn]
      decide
    cases hl : (files.filter (fun e => !e.IsDir && pathBase e.Name == ".")).getLast? with
    | none =>
      rw [List.getLast?_eq_none_iff] at hl
      rw [hl] at hmem
      exact absurd hmem (List.not_mem_nil _)
    | some x => exact ⟨x, rfl⟩
  · intro dest names flt w2 n hn
    obtain ⟨fl, hfl⟩ := rezip_created _ dest names flt w2 n hn
    exact index_key_flat files hslash n fl hfl

theorem index_keys_flat_witness :
    ∃ f w1, newInfile "testdata/test.zip" sampleWorld = (Except.ok f, w1) ∧
      (∀ k ∈ f.basenames.keys, k ≠ "" ∧ '/' ∉ k.data) ∧
      (∀ e ∈ sampleEntries, e.IsDir = false → e.Name = "" → "." ∈ f.basenames.keys) ∧
      (∀ dest names flt w2, ∀ n ∈ createdNames (f.rezip dest names flt w2).trace,
        n ≠ "" ∧ '/' ∉ n.data) :=
  index_keys_flat sampleWorld "testdata/test.zip" sampleEntries (by decide) (by decide)

/-! ## Reading back what rezip wrote -/

theorem newInfile_inv (w : World) (src : String) (f : infile) (w1 : World)
    (h : newInfile src w = (Except.ok f, w1)) :
    ∃ files, w.read src = some (FileData.zip files) ∧ f.basenames = indexEntries files [] := by
  cases hr : w.read src with
  | none => simp [newInfile, openReader, hr] at h
  | some d =>
    cases d with
    | unfinished es => simp [newInfile, openReader, hr] at h
    | zip files =>
      rw [newInfile_ok w src files hr] at h
      have hf := Except.ok.inj (Prod.mk.inj h).1
      exact ⟨files, rfl, by rw [← hf]⟩

theorem getLast?_of_all_eq {α : Type} (l : List α) (a : α) (hne : l ≠ [])
    (h : ∀ x ∈ l, x = a) : l.getLast? = some a := by
  cases hl : l.getLast? with
  | none => exact absurd (List.getLast?_eq_none_iff.1 hl) hne
  | some x => rw [h x (List.mem_of_getLast?_eq_some hl)]

/-- The index over the entries that `rezip` wrote for a list of names without
slash: a name of the list is a key and holds the copy made for it, any other
name is no key. -/
theorem indexEntries_written (names : List String) (c : String → List UInt8)
    (hflat : ∀ n ∈ names, n ≠ "" ∧ '/' ∉ n.data) (k : String) :
    (indexEntries (names.map (fun n => destEntry n (c n))) []).get k =
      if k ∈ names then some (destEntry k (c k)) else none := by
  rw [indexEntries_get]
  have hfilter : ∀ e ∈ (names.map (fun n => destEntry n (c n))).filter
      (fun e => !e.IsDir && pathBase e.Name == k), e = destEntry k (c k) ∧ k ∈ names := by
    intro e he
    obtain ⟨hm, hp⟩ := List.mem_filter.1 he
    obtain ⟨n, hn, rfl⟩ := List.mem_map.1 hm
    have hb : pathBase n = n := pathBase_of_flat n (hflat n hn).1 (hflat n hn).2
    simp only [destEntry, Bool.and_eq_true, beq_iff_eq, hb] at hp
    rw [← hp.2]
    exact ⟨rfl, hn⟩
  by_cases hk : k ∈ names
  · have hmem : destEntry k (c k) ∈ (names.map (fun n => destEntry n (c n))).filter
        (fun e => !e.IsDir && pathBase e.Name == k) := by
      rw [List.mem_filter]
      refine ⟨List.mem_map.2 ⟨k, hk, rfl⟩, ?_⟩
      have hb : pathBase k = k := pathBase_of_flat k (hflat k hk).1 (hflat k hk).2
      have hs : endsWithSlash k = false := endsWithSlash_of_flat k (hflat k hk).2
      simp [destEntry, ZipFile.IsDir, hb, hs]
    rw [getLast?_of_all_eq _ (destEntry k (c k)) (List.ne_nil_of_mem hmem)
      (fun x hx => (hfilter x hx).1), if_pos hk]
    rfl
  · have hnil : (names.map (fun n => destEntry n (c n))).filter
        (fun e => !e.IsDir && pathBase e.Name == k) = [] := by
      rw [List.eq_nil_iff_forall_not_mem]
      intro e he
      exact hk (hfilter e he).2
    rw [hnil, if_neg hk]
    rfl

/-- C3 (the claim at a list with a repeated name): `rezip` of `test1, test1`
succeeds and writes two entries, and the index that `newInfile` builds over
the destination has one key, not two. -/
theorem rezip_repeated_name_counterexample :
    ∃ f w1 g w3, newInfile "testdata/test.zip" sampleWorld = (Except.ok f, w1) ∧
      (∀ n ∈ ["test1", "test1"], n ∈ f.basenames.keys) ∧
      (f.rezip "testdata/out.zip" ["test1", "test1"] noFaults w1).ret = Ret.returned none ∧
      newInfile "testdata/out.zip"
        (f.rezip "testdata/out.zip" ["test1", "test1"] noFaults w1).world = (Except.ok g, w3) ∧
      g.reader.File.length = 2 ∧
      g.basenames.keys = ["test1"] ∧
      g.basenames.length ≠ ["test1", "test1"].length := by
  refine ⟨_, _, _, _, newInfile_ok sampleWorld _ sampleEntries (by decide), by decide, by decide,
    newInfile_ok _ _ [destEntry "test1" (bytesOf "AAA"), destEntry "test1" (bytesOf "AAA")]
      (by decide), by decide, by decide, by decide⟩

/-- C3 (amended): for an infile built by `newInfile` and a list of names that
are all indexed, after a `rezip` that returned `nil` the destination opens as
an archive of exactly as many entries as the list has names, named after them
in list order; the index built over it has as keys exactly the names of the
list, one key per distinct name (as many keys as names when the names are
pairwise distinct), and the entry under each name opens and holds the bytes of
the source entry indexed under that name. -/
theorem rezip_then_index (w : World) (src : String) (f : infile) (w1 : World) (dest : String)
    (names : List String) (flt : Faults) (w2 : World)
    (hnew : newInfile src w = (Except.ok f, w1))
    (hkey : ∀ n ∈ names, n ∈ f.basenames.keys)
    (hok : (f.rezip dest names flt w2).ret = Ret.returned none) :
    ∃ g w3, newInfile dest (f.rezip dest names flt w2).world = (Except.ok g, w3) ∧
      g.reader.File.map (fun e => e.Name) = names ∧
      (∀ k, k ∈ g.basenames.keys ↔ k ∈ names) ∧
      g.basenames.length = names.dedup.length ∧
      (names.Nodup → g.basenames.length = names.length) ∧
      (∀ n ∈ names, ∃ fl gl, f.basenames.get n = some fl ∧ g.basenames.get n = some gl ∧
        gl.Name = n ∧ gl.openErr = none ∧ gl.readErr = none ∧ gl.content = fl.content) := by
  have hin : ∀ n ∈ names, ∃ fl, f.basenames.get n = some fl :=
    fun n hn => (GoMap.mem_keys_iff _ _).1 (hkey n hn)
  obtain ⟨files, _, hidx⟩ := newInfile_inv w src f w1 hnew
  obtain ⟨hread, _, _, _⟩ := rezip_success f dest names flt w2 hok
  have hflat : ∀ n ∈ names, n ≠ "" ∧ '/' ∉ n.data := by
    intro n hn
    obtain ⟨fl, hfl⟩ := hin n hn
    rw [hidx] at hfl
    exact index_key_flat files (fun e _ hd => isDir_false_no_slash e hd) n fl hfl
  have hget := indexEntries_written names f.contentOf hflat
  have hkeys : ∀ k, k ∈ GoMap.keys (indexEntries
      (names.map (fun n => destEntry n (f.contentOf n))) []) ↔ k ∈ names := by
    intro k
    rw [GoMap.mem_keys_iff, hget]
    by_cases hk : k ∈ names <;> simp [hk]
  have hlen : (indexEntries (names.map (fun n => destEntry n (f.contentOf n))) []).length =
      names.dedup.length := by
    have hnd := indexEntries_keys_nodup (names.map (fun n => destEntry n (f.contentOf n))) []
      (by simp [GoMap.keys])
    have hperm : (GoMap.keys (indexEntries
        (names.map (fun n => destEntry n (f.contentOf n))) [])).Perm names.dedup := by
      rw [List.perm_ext_iff_of_nodup hnd (List.nodup_dedup names)]
      intro a
      rw [hkeys, List.mem_dedup]
    have := hperm.length_eq
    simpa [GoMap.keys] using this
  refine ⟨_, _, newInfile_ok _ dest _ hread, ?_, hkeys, hlen, ?_, ?_⟩
  · simp [destEntry, Function.comp_def]
  · intro hnd
    show (indexEntries (names.map (fun n => destEntry n (f.contentOf n))) []).length = _
    rw [hlen, List.dedup_eq_self.2 hnd]
  · intro n hn
    obtain ⟨fl, hfl⟩ := hin n hn
    refine ⟨fl, destEntry n (f.contentOf n), hfl, ?_, rfl, rfl, rfl, ?_⟩
    · show (indexEntries (names.map (fun n => destEntry n (f.contentOf n))) []).get n = _
      rw [hget, if_pos hn]
    · exact infile.contentOf_eq f n fl hfl

theorem rezip_then_index_witness :
    ∃ g w3, newInfile "testdata/out.zip"
        (({ name := "testdata/test.zip", reader := { handle := 0, File := sampleEntries },
            basenames := indexEntries sampleEntries [] } : infile).rezip "testdata/out.zip"
              ["test1", "test2"] noFaults sampleWorld.acquire.2).world = (Except.ok g, w3) ∧
      g.basenames.length = 2 := by
  obtain ⟨g, w3, h1, _, _, _, h5, _⟩ := rezip_then_index sampleWorld "testdata/test.zip"
    { name := "testdata/test.zip", reader := { handle := 0, File := sampleEntries },
      basenames := indexEntries sampleEntries [] }
    sampleWorld.acquire.2 "testdata/out.zip" ["test1", "test2"] noFaults sampleWorld.acquire.2
    (newInfile_ok sampleWorld _ sampleEntries (by decide)) (by decide) (by decide)
  exact ⟨g, w3, h1, h5 (by decide)⟩

/-! ## Picking an entry of the archive -/

/-- C4 (the claim at an archive with a repeated base filename): `a/x` is a
non-directory entry of a valid archive, yet `pick` of its base filename `x`
hands the consumer the bytes of `b/x`, not those of `a/x`. -/
theorem pick_shadowed_entry_counterexample :
    ∃ f w1, newInfile "in.zip" shadowWorld = (Except.ok f, w1) ∧
      fileEntry "a/x" "AAA" ∈ shadowEntries ∧
      (fileEntry "a/x" "AAA").IsDir = false ∧
      (∀ e ∈ shadowEntries, e.openErr = none ∧ e.readErr = none) ∧
      (f.pick (pathBase (fileEntry "a/x" "AAA").Name) recordBytes w1 none).ret = none ∧
      (f.pick (pathBase (fileEntry "a/x" "AAA").Name) recordBytes w1 none).consumer =
        some (fileEntry "b/x" "BBB").content ∧
      (f.pick (pathBase (fileEntry "a/x" "AAA").Name) recordBytes w1 none).consumer ≠
        some (fileEntry "a/x" "AAA").content := by
  refine ⟨_, _, newInfile_ok shadowWorld _ shadowEntries (by decide), by decide, by decide,
    by decide, by decide, by decide, by decide⟩

/-- C4 (amended): for a valid archive (every entry opens and reads without
error) and a non-directory entry `E` of it, after indexing, `pick` of
`path.Base(E.Name)` finds an entry (it takes no not-found return), which is
the last non-directory entry of the archive, from `E` on, with the base
filename of `E`, and `E` itself when no later non-directory entry has that
base filename; `pick` calls the consumer on a stream that yields exactly the
bytes of that entry and returns what the consumer returns. -/
theorem pick_last_entry_of_base {σ : Type} (w : World) (fname : String)
    (pre : List ZipFile) (E : ZipFile) (post : List ZipFile)
    (fn : Stream → σ → Option String × σ) (s : σ) (w2 : World)
    (hfs : w.read fname = some (FileData.zip (pre ++ E :: post)))
    (hvalid : ∀ e ∈ pre ++ E :: post, e.openErr = none ∧ e.readErr = none)
    (hE : E.IsDir = false) :
    ∃ f w1 L rc, newInfile fname w = (Except.ok f, w1) ∧
      f.basenames.get (pathBase E.Name) = some L ∧
      ((E :: post).filter
        (fun e => !e.IsDir && pathBase e.Name == pathBase E.Name)).getLast? = some L ∧
      ((∀ e ∈ post, e.IsDir = true ∨ pathBase e.Name ≠ pathBase E.Name) → L = E) ∧
      rc.bytes = L.content ∧ rc.err = none ∧
      (f.pick (pathBase E.Name) fn w2 s).ret = (fn rc s).1 ∧
      (f.pick (pathBase E.Name) fn w2 s).consumer = (fn rc s).2 ∧
      (f.pick (pathBase E.Name) fn w2 s).trace =
        [Event.openEntry rc.handle (pathBase E.Name), Event.call rc.handle,
         Event.close rc.handle] := by
  have hp : (!E.IsDir && pathBase E.Name == pathBase E.Name) = true := by simp [hE]
  have hlast : ((E :: post).filter
      (fun e => !e.IsDir && pathBase e.Name == pathBase E.Name)).getLast? =
      some (((post.filter
        (fun e => !e.IsDir && pathBase e.Name == pathBase E.Name)).getLast?).getD E) := by
    rw [List.filter_cons, hp, if_pos rfl, List.getLast?_cons]
  have hget : (indexEntries (pre ++ E :: post) []).get (pathBase E.Name) =
      some (((post.filter
        (fun e => !e.IsDir && pathBase e.Name == pathBase E.Name)).getLast?).getD E) := by
    rw [indexEntries_get, List.filter_append, List.getLast?_append, hlast]
    rfl
  obtain ⟨hmem, _, _⟩ := indexEntries_get_some _ _ _ hget
  obtain ⟨hopen, hread⟩ := hvalid _ hmem
  refine ⟨_, _, _, { handle := w2.next, bytes := _, err := none },
    newInfile_ok w fname _ hfs, hget, hlast, ?_, rfl, rfl, ?_, ?_, ?_⟩
  · intro hpost
    have hnil : post.filter (fun e => !e.IsDir && pathBase e.Name == pathBase E.Name) = [] := by
      rw [List.eq_nil_iff_forall_not_mem]
      intro e he
      obtain ⟨hm, hq⟩ := List.mem_filter.1 he
      simp only [Bool.and_eq_true, Bool.not_eq_true', beq_iff_eq] at hq
      rcases hpost e hm with hd | hb
      · rw [hq.1] at hd
        exact absurd hd (by decide)
      · exact hb hq.2
    rw [hnil]
    rfl
  · rw [pick_opened _ _ fn w2 s _ hget hopen, hread]
  · rw [pick_opened _ _ fn w2 s _ hget hopen, hread]
  · rw [pick_opened _ _ fn w2 s _ hget hopen]

theorem pick_last_entry_of_base_witness :
    ∃ f w1 L rc, newInfile "testdata/test.zip" sampleWorld = (Except.ok f, w1) ∧
      f.basenames.get (pathBase "dir/test1") = some L ∧
      rc.bytes = L.content ∧
      (f.pick (pathBase "dir/test1") recordBytes w1 none).consumer =
        (recordBytes rc none).2 := by
  obtain ⟨f, w1, L, rc, h1, h2, _, _, h5, _, _, h8, _⟩ :=
    pick_last_entry_of_base sampleWorld "testdata/test.zip" [] (fileEntry "dir/test1" "AAA")
      [fileEntry "test2" "BBB", fileEntry "test3" "CCC"] recordBytes none sampleWorld.acquire.2
      (by decide) (by decide) (by decide)
  have hw : w1 = sampleWorld.acquire.2 := by
    have h := newInfile_ok sampleWorld "testdata/test.zip" sampleEntries (by decide)
    rw [show sampleEntries = [] ++ fileEntry "dir/test1" "AAA" ::
      [fileEntry "test2" "BBB", fileEntry "test3" "CCC"] from rfl] at h
    rw [h] at h1
    exact ((Prod.mk.inj h1).2).symm
  subst hw
  exact ⟨f, _, L, rc, h1, h2, h5, h8⟩

end ZipfileTest
